import Mathlib

/-!
Verification development for NotiFlow's event engine: course-identifier
parsing, midterm merging across fetch cycles, recurrence expansion,
calendar encoding, per-category storage refresh, and the manual
class-time entry form.
-/

namespace NotiFlow

/-! ### Course identifiers -/

/-- A validated course identifier: subject letters plus a three-digit code. -/
structure CourseIdentifier where
  subject : String
  code : String
deriving DecidableEq

/-- Modelled from the spec: the CourseIdentifierParser (§4.1) runs in the Python
backend, which is not under `src/`. The accepted form follows the repository's
own documentation (`src/KNOWN_ISSUES.md`): a class name must have the shape
letters, then `_V` and a space, then a three digit number, possibly followed by
further text; anything else is not parsed. Input is a list of characters. -/
def parseL (cs : List Char) : Option CourseIdentifier :=
  let subj := cs.takeWhile Char.isAlpha
  match cs.dropWhile Char.isAlpha with
  | '_' :: 'V' :: ' ' :: d1 :: d2 :: d3 :: _ =>
      if subj ≠ [] ∧ d1.isDigit ∧ d2.isDigit ∧ d3.isDigit then
        some ⟨subj.asString, String.mk [d1, d2, d3]⟩
      else none
  | _ => none

/-- String-level entry point of the course-identifier parser. -/
def parse (raw : String) : Option CourseIdentifier :=
  parseL raw.toList

/-- The grammar exactly as the spec's words state it (for comparison with the
implemented grammar): one-or-more letters, an optional separator (a space),
exactly three digits, and an optional trailing section letter. -/
def parseSpecL (cs : List Char) : Option CourseIdentifier :=
  let subj := cs.takeWhile Char.isAlpha
  let rest := cs.dropWhile Char.isAlpha
  let rest2 := if rest.head? = some ' ' then rest.tail else rest
  match rest2 with
  | [d1, d2, d3] =>
      if subj ≠ [] ∧ d1.isDigit ∧ d2.isDigit ∧ d3.isDigit then
        some ⟨subj.asString, String.mk [d1, d2, d3]⟩
      else none
  | [d1, d2, d3, sec] =>
      if subj ≠ [] ∧ d1.isDigit ∧ d2.isDigit ∧ d3.isDigit ∧ sec.isAlpha then
        some ⟨subj.asString, String.mk [d1, d2, d3]⟩
      else none
  | _ => none

/-- The spec-grammar parser on strings. -/
def parseSpec (raw : String) : Option CourseIdentifier :=
  parseSpecL raw.toList

/-! ### Canonical events -/

/-- A canonical event record, with the exact keys of the exchange schema (§6). -/
structure Event where
  course : String
  event_type : String
  date : String
  begin_date_time : String
  end_date_time : String
  location : Option String
deriving DecidableEq

/-- A raw item as it arrives from a collaborator, before normalization. -/
structure RawEvent where
  course : String
  event_type : String
  date : String
  begin_date_time : String
  end_date_time : String
  location : Option String
deriving DecidableEq

/-- The canonical printed form of a validated course identifier. -/
def canonicalCourse (cid : CourseIdentifier) : String :=
  cid.subject ++ " " ++ cid.code

/-- Modelled from the spec: the EventNormalizer (§4.3) is not under `src/`.
A raw item whose course label fails the parser is dropped (`none`), never
stored with a defaulted course. -/
def normalize (r : RawEvent) : Option Event :=
  match parse r.course with
  | none => none
  | some cid =>
      some ⟨canonicalCourse cid, r.event_type, r.date, r.begin_date_time,
            r.end_date_time, r.location⟩

/-! ### Midterm candidates and the per-cycle merge -/

/-- An announcement candidate: a course label and, when the extraction service
found one, a concrete (date, start, end) span. -/
structure AnnouncementCandidate where
  course : String
  span : Option (String × String × String)
deriving DecidableEq

/-- The Midterm Event built from an accepted candidate span. -/
def midtermOf (course : String) (sp : String × String × String) : Event :=
  ⟨course, "Midterm", sp.1, sp.2.1, sp.2.2, none⟩

/-- Modelled from the spec: the MidtermMerger (§4.4) runs in the Python backend,
which is not under `src/`. Candidates are considered in the supplied order; the
first candidate of a course that yields a concrete (date, start, end) span is
accepted as that course's midterm for the cycle, and every later candidate of
the same course in the same cycle is rejected (`src/KNOWN_ISSUES.md`, midterm
limitation 2). The pair carried along is (accepted events, rejected candidates). -/
def processCands (accepted : List Event) (rejected : List AnnouncementCandidate) :
    List AnnouncementCandidate → List Event × List AnnouncementCandidate
  | [] => (accepted, rejected)
  | c :: rest =>
      if accepted.any (fun e => e.course == c.course) then
        processCands accepted (rejected ++ [c]) rest
      else
        match c.span with
        | some sp => processCands (accepted ++ [midtermOf c.course sp]) rejected rest
        | none => processCands accepted (rejected ++ [c]) rest

/-- Modelled from the spec: one merge cycle (§4.4). Accepted candidates replace
any existing stored Midterm Event of the same course; courses with no accepted
candidate are left untouched; rejected candidates form the report. -/
def mergeMidterms (existing : List Event) (cands : List AnnouncementCandidate) :
    List Event × List AnnouncementCandidate :=
  let res := processCands [] [] cands
  (existing.filter (fun e => ! res.1.any (fun a => a.course == e.course)) ++ res.1,
   res.2)

/-- The event the merge accepts for course `X` this cycle, if any: built from
the first candidate of `X`'s group (in supplied order) with a concrete span. -/
def firstAcceptedEvent (cands : List AnnouncementCandidate) (X : String) :
    Option Event :=
  ((cands.filter (fun c => c.course == X)).find? (fun c => c.span.isSome)).bind
    (fun c => c.span.map (fun sp => midtermOf c.course sp))

/-! ### The persisted store and per-category refresh -/

/-- The boolean weekday checkboxes of the class form (`Classtime.days`). -/
structure DaysSelected where
  m : Bool
  tu : Bool
  w : Bool
  th : Bool
  f : Bool
deriving DecidableEq

/-- The object passed to `onSave` by `Classtime.handleSubmit`. -/
structure SavedClass where
  className : String
  days : DaysSelected
  startTime : String
  endTime : String
deriving DecidableEq

/-- The persisted key-value store: one key per category, exactly the keys the
frontend pages write (`classData`, `assignments`, `finals`, `midterms`). -/
structure SyncStorage where
  classData : List SavedClass
  assignments : List Event
  finals : List Event
  midterms : List Event
deriving DecidableEq

/-- `MidtermPage.reparse` (src/app/Frontend/src/components/Pages/MidtermPage.jsx:42-59):
stores the fetched payload under the `midterms` key and writes nothing else. -/
def midtermReparse (s : SyncStorage) (fetched : List Event) : SyncStorage :=
  { s with midterms := fetched }

/-- `AssignmentPage.reparse` (src/app/Frontend/src/components/Pages/AssignmentPage.jsx:63-82):
stores the fetched payload under the `assignments` key and writes nothing else. -/
def assignmentReparse (s : SyncStorage) (fetched : List Event) : SyncStorage :=
  { s with assignments := fetched }

/-- `FinalExamPage.reparse` (MidtermPage.jsx:117-134 of the combined page file):
stores the fetched payload under the `finals` key and writes nothing else. -/
def finalExamReparse (s : SyncStorage) (fetched : List Event) : SyncStorage :=
  { s with finals := fetched }

/-- One full midterm refresh cycle: the backend merge (spec §4.4) followed by the
frontend's storage write of the merged midterm set. Returns the updated store
and the rejection report. -/
def midtermRefresh (s : SyncStorage) (cands : List AnnouncementCandidate) :
    SyncStorage × List AnnouncementCandidate :=
  let res := mergeMidterms s.midterms cands
  (midtermReparse s res.1, res.2)

/-! ### The class list page -/

/-- `ClasstimePage.handleSave`: with a non-null `editingIndex` the entry at that
index is overwritten, otherwise the new entry is appended. -/
def handleSave (classes : List SavedClass) (editingIndex : Option Nat)
    (classObj : SavedClass) : List SavedClass :=
  match editingIndex with
  | some i => classes.set i classObj
  | none => classes ++ [classObj]

/-- `ClasstimePage.handleDelete`: `classes.filter((_, i) => i !== index)`. -/
def handleDelete (classes : List SavedClass) (index : Nat) : List SavedClass :=
  (classes.enum.filter (fun p => p.1 != index)).map (fun p => p.2)

/-- The page's state: the React class list plus the persisted store. -/
structure ClasstimePageState where
  classes : List SavedClass
  storage : SyncStorage
deriving DecidableEq

/-- `ClasstimePage.handleSave` including its storage write: the updated list is
both the new state and the list persisted under `classData`. -/
def pageHandleSave (p : ClasstimePageState) (editingIndex : Option Nat)
    (classObj : SavedClass) : ClasstimePageState :=
  let updated := handleSave p.classes editingIndex classObj
  ⟨updated, { p.storage with classData := updated }⟩

/-- `ClasstimePage.handleDelete` including its storage write. -/
def pageHandleDelete (p : ClasstimePageState) (index : Nat) : ClasstimePageState :=
  let updated := handleDelete p.classes index
  ⟨updated, { p.storage with classData := updated }⟩

/-! ### Recurrence expansion

Dates are modelled as day numbers; the weekday of day `d` is `d % 7`. -/

/-- The weekday of a day number. -/
def wd (d : Nat) : Fin 7 :=
  ⟨d % 7, Nat.mod_lt d (by norm_num)⟩

/-- A recurrence rule: weekly frequency with an interval in weeks, a weekday
set, an anchor date and exception dates (§3, §6). -/
structure RecurrenceRule where
  anchor : Nat
  interval : Nat
  byDay : Finset (Fin 7)
  exceptionDates : Finset Nat

/-- Modelled from the spec: one step of the RecurrenceModel (§4.2) — the dates
emitted for step `k` (the week starting `k * interval` weeks after the
anchor): in chronological order, one date per weekday in the weekday set,
restricted to the window (`dateTo` exclusive). -/
def weekEmits (r : RecurrenceRule) (dateFrom dateTo k : Nat) : List Nat :=
  (List.range 7).filterMap (fun off =>
    let d := r.anchor + 7 * r.interval * k + off
    if wd d ∈ r.byDay ∧ dateFrom ≤ d ∧ d < dateTo then some d else none)

/-- Modelled from the spec: the RecurrenceModel (§4.2) runs in the Python
backend, which is not under `src/`. Starting from the anchor date, step
forward by `interval` weeks, emitting each step's weekday dates, and stop at
the end of the bounded window. Exception dates are not yet removed here. -/
def expandAll (r : RecurrenceRule) (dateFrom dateTo : Nat) : List Nat :=
  (List.range ((dateTo - dateFrom) / (7 * r.interval) + 1)).flatMap
    (weekEmits r dateFrom dateTo)

/-- Modelled from the spec: full expansion — any date present in the exception
set is skipped (§4.2). -/
def expand (r : RecurrenceRule) (dateFrom dateTo : Nat) : List Nat :=
  (expandAll r dateFrom dateTo).filter (fun d => d ∉ r.exceptionDates)

/-! ### Calendar encoding -/

/-- The two iCalendar component shapes relevant here. -/
inductive ICalComponentKind
  | vevent
  | vtodo
deriving DecidableEq

/-- Modelled from the spec: the CalendarEncoder (§4.5) runs in the Python
backend, which is not under `src/`; its behavior follows the repository's own
documentation (`src/KNOWN_ISSUES.md`): the ICal handler uses VTODO objects for
assignments, and timed VEVENT components for the other event kinds. -/
def encodeKind (e : Event) : ICalComponentKind :=
  if e.event_type == "assignment" then .vtodo else .vevent

/-! ### The class-time entry form (`Classtime`, src/unnamed/part_003) -/

/-- `Classtime.generateTimes` loop body. In the source, `minute` only ever
takes the values 0 and 30 (it starts at 0 and wraps at 60); the flag
`halfHour` encodes which of the two it currently is. The first argument
counts the loop iterations still possible under the loop condition
(`44 - (hour * 2 + halfHour)`, supplied by `generateTimesFrom`), which makes
the recursion structural; the loop condition itself still terminates every
run before that counter is exhausted, so the counter never cuts a run short. -/
def generateTimesGo : Nat → Nat → Bool → List String
  | 0, _, _ => []
  | fuel + 1, hour, halfHour =>
      if hour < 21 ∨ (hour = 21 ∧ halfHour = false) then
        let suffix := if hour ≥ 12 then "PM" else "AM"
        let displayHour := if hour > 12 then hour - 12 else hour
        let displayMinute := if halfHour then "30" else "00"
        let entry := toString displayHour ++ ":" ++ displayMinute ++ " " ++ suffix
        if halfHour then entry :: generateTimesGo fuel (hour + 1) false
        else entry :: generateTimesGo fuel hour true
      else []

/-- The `generateTimes` loop started at an arbitrary (hour, half-hour) state. -/
def generateTimesFrom (hour : Nat) (halfHour : Bool) : List String :=
  generateTimesGo (44 - (hour * 2 + cond halfHour 1 0)) hour halfHour

/-- `Classtime.generateTimes` (src/unnamed/part_003:19-37): starts at 8:00 with
`minute = 0`. -/
def generateTimes : List String :=
  generateTimesFrom 8 false

/-- The `allTimes` constant of the component (src/unnamed/part_003:39). -/
def allTimes : List String :=
  generateTimes

/-- JavaScript's `String.prototype.split` on a single-character separator,
on character lists. -/
def splitChar (sep : Char) : List Char → List (List Char)
  | [] => [[]]
  | c :: rest =>
      match splitChar sep rest with
      | [] => if c = sep then [[], []] else [[c]]
      | g :: gs => if c = sep then [] :: g :: gs else (c :: g) :: gs

/-- JavaScript's `Number` coercion restricted to digit strings. -/
def digitsToNat (cs : List Char) : Nat :=
  cs.foldl (fun n c => n * 10 + (c.toNat - 48)) 0

/-- `Classtime.timeToMinutes` (src/unnamed/part_003:41-48). Returns `none` for
the empty string (the source returns `null`). -/
def timeToMinutes (t : String) : Option Nat :=
  if t = "" then none
  else
    match splitChar ' ' t.toList with
    | [time, suffix] =>
        match splitChar ':' time with
        | [hs, ms] =>
            let h0 := digitsToNat hs
            let mn := digitsToNat ms
            let h1 := if suffix = ['P', 'M'] ∧ h0 ≠ 12 then h0 + 12 else h0
            let h2 := if suffix = ['A', 'M'] ∧ h1 = 12 then 0 else h1
            some (h2 * 60 + mn)
        | _ => none
    | _ => none

/-- The comparison used to build `validEndTimes`: true when both strings parse
and `t` is at least 30 minutes after `s`. -/
def minutesGE (t s : String) : Bool :=
  match timeToMinutes t, timeToMinutes s with
  | some a, some b => a ≥ b + 30
  | _, _ => false

/-- `Classtime.validEndTimes` (src/unnamed/part_003:50-52): once a start time is
chosen, only times at least 30 minutes later are selectable as end times. -/
def validEndTimes (startTime : String) : List String :=
  if startTime ≠ "" then allTimes.filter (fun t => minutesGE t startTime)
  else allTimes

/-- The component state of `Classtime`. -/
structure ClasstimeState where
  className : String
  days : DaysSelected
  startTime : String
  endTime : String
deriving DecidableEq

/-- Whether some weekday checkbox is checked (`Object.values(days).some(d => d)`). -/
def anyDaySelected (d : DaysSelected) : Bool :=
  d.m || d.tu || d.w || d.th || d.f

/-- JavaScript's `String.prototype.trim`: strip whitespace from both ends. -/
def strTrim (s : String) : String :=
  (((s.toList.dropWhile Char.isWhitespace).reverse.dropWhile
    Char.isWhitespace).reverse).asString

/-- `Classtime.isValid` (src/unnamed/part_003:54-58). -/
def isValid (st : ClasstimeState) : Bool :=
  strTrim st.className != "" && anyDaySelected st.days &&
    st.startTime != "" && st.endTime != ""

/-- `Classtime.handleSubmit` (src/unnamed/part_003:60-68): returns the object
passed to `onSave`, or `none` when validation fails (the early return). -/
def handleSubmit (st : ClasstimeState) : Option SavedClass :=
  if isValid st then some ⟨st.className, st.days, st.startTime, st.endTime⟩
  else none

/-- The user interactions the form offers. -/
inductive ClasstimeAction
  | setName (s : String)
  | toggleM
  | toggleTu
  | toggleW
  | toggleTh
  | toggleF
  | chooseStart (t : String)
  | chooseEnd (t : String)
deriving DecidableEq

/-- One interaction on the form. The start select offers `""` and `allTimes`;
choosing a start clears the end time (src/unnamed/part_003:100-105). The end
select is disabled until a start is chosen and offers `""` and
`validEndTimes startTime` (src/unnamed/part_003:113-127). -/
def applyAction (st : ClasstimeState) : ClasstimeAction → ClasstimeState
  | .setName s => { st with className := s }
  | .toggleM => { st with days := { st.days with m := !st.days.m } }
  | .toggleTu => { st with days := { st.days with tu := !st.days.tu } }
  | .toggleW => { st with days := { st.days with w := !st.days.w } }
  | .toggleTh => { st with days := { st.days with th := !st.days.th } }
  | .toggleF => { st with days := { st.days with f := !st.days.f } }
  | .chooseStart t =>
      if t = "" ∨ t ∈ allTimes then { st with startTime := t, endTime := "" }
      else st
  | .chooseEnd t =>
      if st.startTime ≠ "" ∧ (t = "" ∨ t ∈ validEndTimes st.startTime) then
        { st with endTime := t }
      else st

/-- The form's initial state (all `useState` defaults). -/
def initState : ClasstimeState :=
  ⟨"", ⟨false, false, false, false, false⟩, "", ""⟩

/-- Running a sequence of interactions on the form. -/
def runActions (st : ClasstimeState) (acts : List ClasstimeAction) : ClasstimeState :=
  acts.foldl applyAction st

/-- `Classtime`'s submit wired to `ClasstimePage`: a valid submission is saved
through `handleSave`, an invalid one leaves the page untouched. -/
def submitOnPage (p : ClasstimePageState) (editingIndex : Option Nat)
    (st : ClasstimeState) : ClasstimePageState :=
  match handleSubmit st with
  | some obj => pageHandleSave p editingIndex obj
  | none => p

/-- The form invariant: either no end time is chosen yet, or a start time is
chosen and the end time was picked from its `validEndTimes` dropdown. -/
def EndOk (st : ClasstimeState) : Prop :=
  st.endTime = "" ∨
    (st.startTime ≠ "" ∧ st.endTime ∈ validEndTimes st.startTime)

/-! ## Helper lemmas -/

theorem takeWhile_all_append {α : Type} (p : α → Bool) (l₁ l₂ : List α)
    (h : ∀ a ∈ l₁, p a = true) :
    (l₁ ++ l₂).takeWhile p = l₁ ++ l₂.takeWhile p := by
  induction l₁ with
  | nil => simp
  | cons a t ih =>
      simp only [List.cons_append, List.takeWhile_cons, h a (by simp), if_true]
      rw [ih (fun b hb => h b (by simp [hb]))]

theorem dropWhile_all_append {α : Type} (p : α → Bool) (l₁ l₂ : List α)
    (h : ∀ a ∈ l₁, p a = true) :
    (l₁ ++ l₂).dropWhile p = l₂.dropWhile p := by
  induction l₁ with
  | nil => simp
  | cons a t ih =>
      simp only [List.cons_append, List.dropWhile_cons, h a (by simp), if_true]
      exact ih (fun b hb => h b (by simp [hb]))

theorem enumFrom_filter_ne_small {α : Type} (t : List α) (n m : Nat) (hm : m < n) :
    ((List.enumFrom n t).filter (fun q => q.1 != m)).map (fun q => q.2) = t := by
  induction t generalizing n with
  | nil => rfl
  | cons c t ih =>
      have hne : (n != m) = true := by simp; omega
      simp only [List.enumFrom, List.filter_cons, hne, if_true, List.map_cons]
      rw [ih (n + 1) (by omega)]

theorem enumFrom_filter_ne_map {α : Type} (l : List α) (n i : Nat) :
    ((List.enumFrom n l).filter (fun q => q.1 != (n + i))).map (fun q => q.2) =
      l.eraseIdx i := by
  induction l generalizing n i with
  | nil => rfl
  | cons c t ih =>
      cases i with
      | zero =>
          have hz : (n != n + 0) = true → False := by simp
          simp only [List.enumFrom, List.filter_cons]
          have : (n != n + 0) = false := by simp
          rw [this]
          simp only [Bool.false_eq_true, if_false, List.eraseIdx_cons_zero]
          exact enumFrom_filter_ne_small t (n + 1) (n + 0) (by omega)
      | succ j =>
          have hne : (n != n + (j + 1)) = true := by simp
          simp only [List.enumFrom, List.filter_cons, hne, if_true, List.map_cons]
          have := ih (n + 1) j
          rw [show n + 1 + j = n + (j + 1) by omega] at this
          rw [this]
          rfl

theorem handleDelete_eq_eraseIdx (l : List SavedClass) (i : Nat) :
    handleDelete l i = l.eraseIdx i := by
  have := enumFrom_filter_ne_map l 0 i
  simpa [handleDelete, List.enum] using this

theorem processCands_cons_inAcc (c : AnnouncementCandidate)
    (rest : List AnnouncementCandidate) (acc : List Event)
    (rej : List AnnouncementCandidate)
    (hany : acc.any (fun e => e.course == c.course) = true) :
    processCands acc rej (c :: rest) = processCands acc (rej ++ [c]) rest := by
  simp [processCands, hany]

theorem processCands_cons_accept (c : AnnouncementCandidate)
    (rest : List AnnouncementCandidate) (acc : List Event)
    (rej : List AnnouncementCandidate) (sp : String × String × String)
    (hany : acc.any (fun e => e.course == c.course) = false)
    (hspan : c.span = some sp) :
    processCands acc rej (c :: rest) =
      processCands (acc ++ [midtermOf c.course sp]) rej rest := by
  simp [processCands, hany, hspan]

theorem processCands_cons_noSpan (c : AnnouncementCandidate)
    (rest : List AnnouncementCandidate) (acc : List Event)
    (rej : List AnnouncementCandidate)
    (hany : acc.any (fun e => e.course == c.course) = false)
    (hspan : c.span = none) :
    processCands acc rej (c :: rest) = processCands acc (rej ++ [c]) rest := by
  simp [processCands, hany, hspan]

theorem firstAcceptedEvent_cons_other (c : AnnouncementCandidate)
    (rest : List AnnouncementCandidate) (X : String) (hXc : ¬ c.course = X) :
    firstAcceptedEvent (c :: rest) X = firstAcceptedEvent rest X := by
  simp [firstAcceptedEvent, List.filter_cons, hXc]

theorem firstAcceptedEvent_cons_noSpan (c : AnnouncementCandidate)
    (rest : List AnnouncementCandidate) (X : String) (hspan : c.span = none) :
    firstAcceptedEvent (c :: rest) X = firstAcceptedEvent rest X := by
  by_cases hXc : c.course = X
  · simp [firstAcceptedEvent, List.filter_cons, hXc, List.find?_cons, hspan]
  · exact firstAcceptedEvent_cons_other c rest X hXc

theorem processCands_fst_filter (cands : List AnnouncementCandidate)
    (acc : List Event) (rej : List AnnouncementCandidate) (X : String) :
    (processCands acc rej cands).1.filter (fun e => e.course == X) =
      acc.filter (fun e => e.course == X) ++
        (if acc.any (fun e => e.course == X) then []
         else (firstAcceptedEvent cands X).toList) := by
  induction cands generalizing acc rej with
  | nil =>
      cases h : acc.any (fun e => e.course == X) <;>
        simp [processCands, firstAcceptedEvent, h]
  | cons c rest ih =>
      by_cases hany : acc.any (fun e => e.course == c.course)
      · rw [processCands_cons_inAcc c rest acc rej hany, ih]
        by_cases hXc : c.course = X
        · subst hXc
          rw [if_pos hany, if_pos hany]
        · rw [firstAcceptedEvent_cons_other c rest X hXc]
      · rw [Bool.not_eq_true] at hany
        cases hspan : c.span with
        | some sp =>
            rw [processCands_cons_accept c rest acc rej sp hany hspan, ih]
            by_cases hXc : c.course = X
            · subst hXc
              have hfilt : (acc ++ [midtermOf c.course sp]).filter
                  (fun e => e.course == c.course) =
                  acc.filter (fun e => e.course == c.course) ++
                    [midtermOf c.course sp] := by
                rw [List.filter_append]
                simp [midtermOf]
              have hany2 : (acc ++ [midtermOf c.course sp]).any
                  (fun e => e.course == c.course) = true := by
                rw [List.any_append]
                simp [midtermOf]
              have hfa : firstAcceptedEvent (c :: rest) c.course =
                  some (midtermOf c.course sp) := by
                simp [firstAcceptedEvent, List.filter_cons, List.find?_cons,
                  hspan]
              rw [hfilt, hany2, hfa, if_pos rfl, if_neg (by simp [hany])]
              simp
            · have hfilt : (acc ++ [midtermOf c.course sp]).filter
                  (fun e => e.course == X) = acc.filter (fun e => e.course == X) := by
                rw [List.filter_append]
                simp [midtermOf, hXc]
              have hany2 : (acc ++ [midtermOf c.course sp]).any
                  (fun e => e.course == X) = acc.any (fun e => e.course == X) := by
                rw [List.any_append]
                simp [midtermOf, hXc]
              rw [hfilt, hany2, firstAcceptedEvent_cons_other c rest X hXc]
        | none =>
            rw [processCands_cons_noSpan c rest acc rej hany hspan, ih,
              firstAcceptedEvent_cons_noSpan c rest X hspan]

theorem processCands_start_filter (cands : List AnnouncementCandidate) (X : String) :
    (processCands [] [] cands).1.filter (fun e => e.course == X) =
      (firstAcceptedEvent cands X).toList := by
  simpa using processCands_fst_filter cands [] [] X

theorem mergeMidterms_filter (existing : List Event)
    (cands : List AnnouncementCandidate) (X : String) (ev : Event)
    (h : firstAcceptedEvent cands X = some ev) :
    (mergeMidterms existing cands).1.filter (fun e => e.course == X) = [ev] := by
  have hacc := processCands_start_filter cands X
  rw [h] at hacc
  have hmem : ev ∈ (processCands [] [] cands).1 := by
    have : ev ∈ (processCands [] [] cands).1.filter (fun e => e.course == X) := by
      rw [hacc]; simp
    exact (List.mem_filter.mp this).1
  have hevX : (ev.course == X) = true := by
    have : ev ∈ (processCands [] [] cands).1.filter (fun e => e.course == X) := by
      rw [hacc]; simp
    exact (List.mem_filter.mp this).2
  simp only [mergeMidterms]
  rw [List.filter_append, hacc]
  have hnil : (existing.filter
      (fun e => ! (processCands [] [] cands).1.any
        (fun a => a.course == e.course))).filter (fun e => e.course == X) = [] := by
    rw [List.filter_eq_nil_iff]
    intro e he
    intro heX
    have hpred := (List.mem_filter.mp he).2
    rw [Bool.not_eq_eq_eq_not, Bool.not_true, List.any_eq_false] at hpred
    apply hpred ev hmem
    have heq : e.course = X := by simpa using heX
    rw [heq]
    exact hevX
  rw [hnil, List.nil_append]
  rfl

theorem mem_processCands_rej (cands : List AnnouncementCandidate)
    (acc : List Event) (rej : List AnnouncementCandidate)
    (x : AnnouncementCandidate) (hx : x ∈ rej) :
    x ∈ (processCands acc rej cands).2 := by
  induction cands generalizing acc rej with
  | nil => simpa [processCands] using hx
  | cons c rest ih =>
      by_cases hany : acc.any (fun e => e.course == c.course)
      · rw [processCands_cons_inAcc c rest acc rej hany]
        exact ih _ _ (List.mem_append_left _ hx)
      · rw [Bool.not_eq_true] at hany
        cases hspan : c.span with
        | some sp =>
            rw [processCands_cons_accept c rest acc rej sp hany hspan]
            exact ih _ _ hx
        | none =>
            rw [processCands_cons_noSpan c rest acc rej hany hspan]
            exact ih _ _ (List.mem_append_left _ hx)

theorem processCands_rejects_later (l₁ l₂ : List AnnouncementCandidate)
    (c : AnnouncementCandidate) (acc : List Event)
    (rej : List AnnouncementCandidate)
    (h : acc.any (fun e => e.course == c.course) = true ∨
         ∃ c' ∈ l₁, c'.course = c.course ∧ c'.span.isSome = true) :
    c ∈ (processCands acc rej (l₁ ++ c :: l₂)).2 := by
  induction l₁ generalizing acc rej with
  | nil =>
      rcases h with h | h
      · rw [List.nil_append, processCands_cons_inAcc c l₂ acc rej h]
        exact mem_processCands_rej _ _ _ _ (by simp)
      · simp at h
  | cons d t ih =>
      rw [List.cons_append]
      by_cases hany : acc.any (fun e => e.course == d.course)
      · rw [processCands_cons_inAcc d (t ++ c :: l₂) acc rej hany]
        apply ih
        rcases h with h | ⟨c', hc', hcc, hsome⟩
        · exact Or.inl h
        · rcases List.mem_cons.mp hc' with rfl | hct
          · exact Or.inl (by rw [← hcc]; exact hany)
          · exact Or.inr ⟨c', hct, hcc, hsome⟩
      · rw [Bool.not_eq_true] at hany
        cases hspan : d.span with
        | some sp =>
            rw [processCands_cons_accept d (t ++ c :: l₂) acc rej sp hany hspan]
            apply ih
            rcases h with h | ⟨c', hc', hcc, hsome⟩
            · refine Or.inl ?_
              rw [List.any_append]
              simp [h]
            · rcases List.mem_cons.mp hc' with rfl | hct
              · refine Or.inl ?_
                rw [List.any_append]
                simp [midtermOf, hcc]
              · exact Or.inr ⟨c', hct, hcc, hsome⟩
        | none =>
            rw [processCands_cons_noSpan d (t ++ c :: l₂) acc rej hany hspan]
            apply ih
            rcases h with h | ⟨c', hc', hcc, hsome⟩
            · exact Or.inl h
            · rcases List.mem_cons.mp hc' with rfl | hct
              · rw [hspan] at hsome
                simp at hsome
              · exact Or.inr ⟨c', hct, hcc, hsome⟩

theorem length_filterMap_if {α β : Type} (l : List α) (p : α → Prop)
    [DecidablePred p] (f : α → β) :
    (l.filterMap (fun x => if p x then some (f x) else none)).length =
      (l.filter (fun x => decide (p x))).length := by
  induction l with
  | nil => rfl
  | cons a t ih =>
      by_cases h : p a <;>
        simp [List.filterMap_cons, List.filter_cons, h, ih]

theorem length_filter_decide_not {α : Type} (l : List α) (p : α → Prop)
    [DecidablePred p] :
    (l.filter (fun x => decide (¬ p x))).length =
      l.length - (l.filter (fun x => decide (p x))).length := by
  induction l with
  | nil => rfl
  | cons x t ih =>
      have hle := List.length_filter_le (fun x => decide (p x)) t
      by_cases h : p x
      · have h1 : (decide (¬ p x)) = false := by simp [h]
        have h2 : (decide (p x)) = true := by simp [h]
        simp only [List.filter_cons, h1, h2, Bool.false_eq_true, if_false,
          if_true, List.length_cons]
        omega
      · have h1 : (decide (¬ p x)) = true := by simp [h]
        have h2 : (decide (p x)) = false := by simp [h]
        simp only [List.filter_cons, h1, h2, Bool.false_eq_true, if_false,
          if_true, List.length_cons]
        omega

set_option maxRecDepth 10000 in
theorem count_weekdays_in_week : ∀ (b : Fin 7) (W : Finset (Fin 7)),
    ((List.range 7).filter (fun off => decide (wd (b.val + off) ∈ W))).length =
      W.card := by
  decide

theorem wd_add_seven_mul (a m off : Nat) :
    wd (a + 7 * m + off) = wd (a % 7 + off) := by
  apply Fin.ext
  simp only [wd]
  omega

theorem mem_weekEmits {r : RecurrenceRule} {dateFrom dateTo k x : Nat} :
    x ∈ weekEmits r dateFrom dateTo k ↔
      ∃ off, off < 7 ∧ x = r.anchor + 7 * r.interval * k + off ∧
        wd x ∈ r.byDay ∧ dateFrom ≤ x ∧ x < dateTo := by
  simp only [weekEmits, List.mem_filterMap, List.mem_range]
  constructor
  · rintro ⟨off, hoff, hsome⟩
    by_cases hc : wd (r.anchor + 7 * r.interval * k + off) ∈ r.byDay ∧
        dateFrom ≤ r.anchor + 7 * r.interval * k + off ∧
        r.anchor + 7 * r.interval * k + off < dateTo
    · rw [if_pos hc] at hsome
      obtain rfl := Option.some.inj hsome
      exact ⟨off, hoff, rfl, hc.1, hc.2.1, hc.2.2⟩
    · rw [if_neg hc] at hsome
      exact absurd hsome (by simp)
  · rintro ⟨off, hoff, rfl, h1, h2, h3⟩
    exact ⟨off, hoff, by rw [if_pos ⟨h1, h2, h3⟩]⟩

theorem weekEmits_length_full (r : RecurrenceRule) (k : Nat)
    (hI : 1 ≤ r.interval) (hk : k ≤ 9) :
    (weekEmits r r.anchor (r.anchor + 70 * r.interval) k).length =
      r.byDay.card := by
  have hb2 : r.anchor + 7 * r.interval * k + 6 < r.anchor + 70 * r.interval := by
    have h1 : 7 * r.interval * k ≤ 63 * r.interval := by
      calc 7 * r.interval * k ≤ 7 * r.interval * 9 :=
            Nat.mul_le_mul (Nat.le_refl _) hk
        _ = 63 * r.interval := by ring
    omega
  have hcong : ∀ off ∈ List.range 7,
      (decide (wd (r.anchor + 7 * r.interval * k + off) ∈ r.byDay ∧
        r.anchor ≤ r.anchor + 7 * r.interval * k + off ∧
        r.anchor + 7 * r.interval * k + off < r.anchor + 70 * r.interval)) =
      decide (wd (r.anchor % 7 + off) ∈ r.byDay) := by
    intro off hoff
    have hoff7 := List.mem_range.mp hoff
    have hwd : wd (r.anchor + 7 * r.interval * k + off) =
        wd (r.anchor % 7 + off) := by
      have hr : r.anchor + 7 * r.interval * k + off =
          r.anchor + 7 * (r.interval * k) + off := by ring
      rw [hr, wd_add_seven_mul]
    rw [hwd, decide_eq_decide]
    constructor
    · exact fun h => h.1
    · exact fun h => ⟨h, by omega, by omega⟩
  simp only [weekEmits]
  rw [length_filterMap_if, List.filter_congr hcong]
  have := count_weekdays_in_week ⟨r.anchor % 7, by omega⟩ r.byDay
  simpa using this

theorem weekEmits_ten (r : RecurrenceRule) :
    weekEmits r r.anchor (r.anchor + 70 * r.interval) 10 = [] := by
  simp only [weekEmits]
  rw [List.filterMap_eq_nil_iff]
  intro off hoff
  rw [if_neg]
  rintro ⟨-, -, h3⟩
  have h4 : 7 * r.interval * 10 = 70 * r.interval := by ring
  omega

theorem expandAll_length_window (r : RecurrenceRule) (hI : 1 ≤ r.interval) :
    (expandAll r r.anchor (r.anchor + 70 * r.interval)).length =
      10 * r.byDay.card := by
  have hw : (r.anchor + 70 * r.interval - r.anchor) / (7 * r.interval) + 1 = 11 := by
    have h1 : r.anchor + 70 * r.interval - r.anchor = 70 * r.interval := by omega
    rw [h1]
    have h2 : 70 * r.interval = 10 * (7 * r.interval) := by ring
    rw [h2, Nat.mul_div_cancel _ (by omega : 0 < 7 * r.interval)]
  simp only [expandAll]
  rw [hw, show (11 : Nat) = 10 + 1 from rfl, List.range_succ,
    List.flatMap_append, List.length_append]
  have h10 : ((List.range 10).flatMap
      (weekEmits r r.anchor (r.anchor + 70 * r.interval))).length =
      10 * r.byDay.card := by
    rw [List.length_flatMap]
    have hrep : (List.range 10).map
        (List.length ∘ weekEmits r r.anchor (r.anchor + 70 * r.interval)) =
        List.replicate 10 r.byDay.card := by
      apply List.eq_replicate_iff.mpr
      refine ⟨by simp, ?_⟩
      intro b hb
      obtain ⟨k, hk, rfl⟩ := List.mem_map.mp hb
      exact weekEmits_length_full r k hI
        (by have := List.mem_range.mp hk; omega)
    rw [hrep, List.sum_replicate, smul_eq_mul]
  have hlast : ([10].flatMap
      (weekEmits r r.anchor (r.anchor + 70 * r.interval))).length = 0 := by
    simp [weekEmits_ten r]
  rw [h10, hlast]
  omega

theorem expandAll_pairwise (r : RecurrenceRule) (dateFrom dateTo : Nat)
    (hI : 1 ≤ r.interval) :
    List.Pairwise (· < ·) (expandAll r dateFrom dateTo) := by
  simp only [expandAll]
  rw [List.flatMap_def, List.pairwise_flatten]
  constructor
  · intro l' hl'
    obtain ⟨k, hk, rfl⟩ := List.mem_map.mp hl'
    simp only [weekEmits]
    rw [List.pairwise_filterMap]
    apply (List.pairwise_lt_range 7).imp
    intro off off' hlt x hx y hy
    have hx' : x = r.anchor + 7 * r.interval * k + off := by
      by_cases hc : wd (r.anchor + 7 * r.interval * k + off) ∈ r.byDay ∧
          dateFrom ≤ r.anchor + 7 * r.interval * k + off ∧
          r.anchor + 7 * r.interval * k + off < dateTo
      · rw [if_pos hc] at hx
        exact (Option.mem_some_iff.mp hx).symm
      · rw [if_neg hc] at hx
        exact absurd hx (by simp)
    have hy' : y = r.anchor + 7 * r.interval * k + off' := by
      by_cases hc : wd (r.anchor + 7 * r.interval * k + off') ∈ r.byDay ∧
          dateFrom ≤ r.anchor + 7 * r.interval * k + off' ∧
          r.anchor + 7 * r.interval * k + off' < dateTo
      · rw [if_pos hc] at hy
        exact (Option.mem_some_iff.mp hy).symm
      · rw [if_neg hc] at hy
        exact absurd hy (by simp)
    omega
  · rw [List.pairwise_map]
    apply (List.pairwise_lt_range _).imp
    intro k k' hkk x hx y hy
    obtain ⟨off, hoff, rfl, -, -, -⟩ := mem_weekEmits.mp hx
    obtain ⟨off', hoff', rfl, -, -, -⟩ := mem_weekEmits.mp hy
    have hmul : 7 * r.interval * (k + 1) ≤ 7 * r.interval * k' :=
      Nat.mul_le_mul (Nat.le_refl _) (by omega)
    have hsplit : 7 * r.interval * (k + 1) = 7 * r.interval * k +
        7 * r.interval := by ring
    omega

theorem mem_expandAll_weekday {r : RecurrenceRule} {dateFrom dateTo x : Nat}
    (hx : x ∈ expandAll r dateFrom dateTo) : wd x ∈ r.byDay := by
  simp only [expandAll, List.mem_flatMap] at hx
  obtain ⟨k, -, hxk⟩ := hx
  obtain ⟨off, -, -, hW, -, -⟩ := mem_weekEmits.mp hxk
  exact hW

theorem endOk_apply (st : ClasstimeState) (act : ClasstimeAction)
    (h : EndOk st) : EndOk (applyAction st act) := by
  cases act with
  | setName s => simpa [applyAction, EndOk] using h
  | toggleM => simpa [applyAction, EndOk] using h
  | toggleTu => simpa [applyAction, EndOk] using h
  | toggleW => simpa [applyAction, EndOk] using h
  | toggleTh => simpa [applyAction, EndOk] using h
  | toggleF => simpa [applyAction, EndOk] using h
  | chooseStart t =>
      simp only [applyAction]
      split
      · exact Or.inl rfl
      · exact h
  | chooseEnd t =>
      simp only [applyAction]
      split
      · next hcond =>
          obtain ⟨hs, hopt⟩ := hcond
          rcases hopt with rfl | hmem
          · exact Or.inl rfl
          · exact Or.inr ⟨hs, hmem⟩
      · exact h

theorem endOk_run (acts : List ClasstimeAction) (st : ClasstimeState)
    (h : EndOk st) : EndOk (runActions st acts) := by
  induction acts generalizing st with
  | nil => simpa [runActions] using h
  | cons a rest ih => exact ih _ (endOk_apply st a h)

/-! ## Claim theorems -/

/-- C3 (code_bug evidence): contrary to the claim that every event kind is
emitted as a timed calendar entry, the encoder — as the repository's own
KNOWN_ISSUES.md documents — emits an assignment as a VTODO (to-do) component;
other kinds are emitted as timed VEVENT entries. Evaluated at a concrete
assignment event. -/
theorem assignment_encoded_as_vtodo :
    encodeKind ⟨"CPEN 221", "assignment", "2025/12/10", "12:00:00", "14:30:00", none⟩ =
      ICalComponentKind.vtodo ∧
    encodeKind ⟨"CPEN 221", "final", "2025/12/10", "12:00:00", "14:30:00", none⟩ =
      ICalComponentKind.vevent :=
  ⟨rfl, rfl⟩

/-- C4 (counterexample): the claim asserts that `parse "CPEN 221"` and
`parse "MATH253"` succeed; the parser whose grammar the repository documents
(KNOWN_ISSUES.md: class names must have the form letters`_V` digits) rejects
both, while the grammar written in the spec's words accepts them. -/
theorem parse_spaced_course_rejected :
    parse "CPEN 221" = none ∧ parse "MATH253" = none ∧
    parseSpec "CPEN 221" = some ⟨"CPEN", "221"⟩ ∧
    parseSpec "MATH253" = some ⟨"MATH", "253"⟩ := by
  refine ⟨rfl, rfl, rfl, rfl⟩

/-- C4 (amended): the course identifier parser accepts exactly the strings of
the form `<letters>_V <3 digits><anything>`: `parse "CPEN_V 221"` succeeds,
while `parse "CPEN 221"` and `parse "Intro to Programming"` are rejected, and
a rejected course label causes the whole candidate event to be dropped by
normalization rather than stored with a defaulted course. -/
theorem parse_accepts_exactly_underscore_v_form :
    (∀ (cs : List Char) (r : CourseIdentifier),
        parseL cs = some r ↔
          ∃ subj d1 d2 d3 rest,
            cs = subj ++ '_' :: 'V' :: ' ' :: d1 :: d2 :: d3 :: rest ∧
            subj ≠ [] ∧ (∀ ch ∈ subj, ch.isAlpha = true) ∧
            d1.isDigit = true ∧ d2.isDigit = true ∧ d3.isDigit = true ∧
            r = ⟨subj.asString, String.mk [d1, d2, d3]⟩) ∧
    parse "CPEN_V 221" = some ⟨"CPEN", "221"⟩ ∧
    parse "CPEN 221" = none ∧
    parse "Intro to Programming" = none ∧
    (∀ raw : RawEvent, parse raw.course = none → normalize raw = none) := by
  refine ⟨?_, rfl, rfl, rfl, ?_⟩
  · intro cs r
    constructor
    · intro h
      simp only [parseL] at h
      split at h
      · next d1 d2 d3 rest heq =>
          split at h
          · next hcond =>
              obtain ⟨hne, h1, h2, h3⟩ := hcond
              refine ⟨cs.takeWhile Char.isAlpha, d1, d2, d3, rest, ?_, hne, ?_, h1, h2, h3, ?_⟩
              · conv_lhs => rw [← List.takeWhile_append_dropWhile (p := Char.isAlpha) (l := cs)]
                rw [heq]
              · intro ch hch
                exact List.mem_takeWhile_imp hch
              · exact (Option.some.inj h).symm
          · exact absurd h (by simp)
      · exact absurd h (by simp)
    · rintro ⟨subj, d1, d2, d3, rest, hcs, hne, halpha, h1, h2, h3, hr⟩
      subst hcs hr
      have hdrop : (subj ++ '_' :: 'V' :: ' ' :: d1 :: d2 :: d3 :: rest).dropWhile
          Char.isAlpha = '_' :: 'V' :: ' ' :: d1 :: d2 :: d3 :: rest := by
        rw [dropWhile_all_append _ _ _ halpha, List.dropWhile_cons]
        simp [Char.isAlpha, Char.isUpper, Char.isLower]
      have htake : (subj ++ '_' :: 'V' :: ' ' :: d1 :: d2 :: d3 :: rest).takeWhile
          Char.isAlpha = subj := by
        rw [takeWhile_all_append _ _ _ halpha, List.takeWhile_cons]
        simp [Char.isAlpha, Char.isUpper, Char.isLower]
      simp only [parseL, hdrop, htake]
      simp [hne, h1, h2, h3]
  · intro raw hnone
    simp [normalize, hnone]

/-- C4 witness: the amended characterization and the drop-on-rejection rule,
instantiated at concrete inputs. -/
theorem parse_underscore_v_witness :
    parseL ("ELEC_V 291 101".toList) = some ⟨"ELEC", "291"⟩ ∧
    normalize ⟨"Intro to Programming", "assignment", "2025/12/10", "12:00:00",
      "14:30:00", none⟩ = none := by
  constructor
  · exact (parse_accepts_exactly_underscore_v_form.1 _ _).2
      ⟨['E', 'L', 'E', 'C'], '2', '9', '1', [' ', '1', '0', '1'],
        by decide, by decide, by decide, by decide, by decide, by decide, by decide⟩
  · exact parse_accepts_exactly_underscore_v_form.2.2.2.2 _ (by decide)

/-- C6: refreshing one category writes only that category's key of the
persisted store; the other three categories' stored subsets are untouched
(and in particular not revalidated). Shown for all four refresh operations,
including the full modelled midterm cycle. -/
theorem category_refresh_frame (s : SyncStorage) (mts asgs fins : List Event)
    (cands : List AnnouncementCandidate) (p : ClasstimePageState)
    (ei : Option Nat) (obj : SavedClass) (idx : Nat) :
    ((midtermReparse s mts).midterms = mts ∧
     (midtermReparse s mts).classData = s.classData ∧
     (midtermReparse s mts).assignments = s.assignments ∧
     (midtermReparse s mts).finals = s.finals) ∧
    ((assignmentReparse s asgs).assignments = asgs ∧
     (assignmentReparse s asgs).classData = s.classData ∧
     (assignmentReparse s asgs).finals = s.finals ∧
     (assignmentReparse s asgs).midterms = s.midterms) ∧
    ((finalExamReparse s fins).finals = fins ∧
     (finalExamReparse s fins).classData = s.classData ∧
     (finalExamReparse s fins).assignments = s.assignments ∧
     (finalExamReparse s fins).midterms = s.midterms) ∧
    ((midtermRefresh s cands).1.classData = s.classData ∧
     (midtermRefresh s cands).1.assignments = s.assignments ∧
     (midtermRefresh s cands).1.finals = s.finals) ∧
    ((pageHandleSave p ei obj).storage.assignments = p.storage.assignments ∧
     (pageHandleSave p ei obj).storage.finals = p.storage.finals ∧
     (pageHandleSave p ei obj).storage.midterms = p.storage.midterms) ∧
    ((pageHandleDelete p idx).storage.assignments = p.storage.assignments ∧
     (pageHandleDelete p idx).storage.finals = p.storage.finals ∧
     (pageHandleDelete p idx).storage.midterms = p.storage.midterms) :=
  ⟨⟨rfl, rfl, rfl, rfl⟩, ⟨rfl, rfl, rfl, rfl⟩, ⟨rfl, rfl, rfl, rfl⟩,
   ⟨rfl, rfl, rfl⟩, ⟨rfl, rfl, rfl⟩, ⟨rfl, rfl, rfl⟩⟩

/-- C8: a class-meeting submission with an empty weekday set, a blank (after
trimming) course name, or a missing start or end time is never saved:
`handleSubmit` yields nothing, `onSave` is not invoked, and the page's class
list and the persisted `classData` are unchanged. -/
theorem invalid_class_not_saved (st : ClasstimeState) (p : ClasstimePageState)
    (ei : Option Nat)
    (h : anyDaySelected st.days = false ∨ strTrim st.className = "" ∨
         st.startTime = "" ∨ st.endTime = "") :
    handleSubmit st = none ∧ submitOnPage p ei st = p ∧
    (submitOnPage p ei st).classes = p.classes ∧
    (submitOnPage p ei st).storage.classData = p.storage.classData := by
  have hv : isValid st = false := by
    rcases h with h | h | h | h <;> simp [isValid, h]
  have hs : handleSubmit st = none := by
    simp [handleSubmit, hv]
  refine ⟨hs, ?_, ?_, ?_⟩ <;> simp [submitOnPage, hs]

/-- C8 witness: a concrete submission with no weekday selected is rejected and
leaves a concrete page state unchanged. -/
theorem invalid_class_not_saved_witness :
    handleSubmit ⟨"CPEN 221", ⟨false, false, false, false, false⟩, "8:00 AM", "9:00 AM"⟩ =
      none ∧
    submitOnPage ⟨[], ⟨[], [], [], []⟩⟩ none
      ⟨"CPEN 221", ⟨false, false, false, false, false⟩, "8:00 AM", "9:00 AM"⟩ =
      ⟨[], ⟨[], [], [], []⟩⟩ := by
  have h := invalid_class_not_saved
    ⟨"CPEN 221", ⟨false, false, false, false, false⟩, "8:00 AM", "9:00 AM"⟩
    ⟨[], ⟨[], [], [], []⟩⟩ none (Or.inl (by decide))
  exact ⟨h.1, h.2.1⟩

/-- C9: `generateTimes` returns exactly 27 time strings — 8:00 AM through
9:00 PM inclusive in 30-minute steps — strictly increasing by time of day;
every selectable start or end time is one of them, and each lies between
08:00 (480 minutes) and 21:00 (1260 minutes). -/
theorem generateTimes_spec :
    generateTimes.length = 27 ∧
    generateTimes.head? = some "8:00 AM" ∧
    generateTimes.getLast? = some "9:00 PM" ∧
    generateTimes.map timeToMinutes =
      (List.range 27).map (fun i => some (480 + 30 * i)) ∧
    List.Chain' (· < ·) (generateTimes.map (fun t => (timeToMinutes t).getD 0)) ∧
    (∀ s t, t ∈ validEndTimes s → t ∈ generateTimes) ∧
    (∀ t ∈ generateTimes, ∃ mnts, timeToMinutes t = some mnts ∧
      480 ≤ mnts ∧ mnts ≤ 1260) := by
  have hmap : generateTimes.map timeToMinutes =
      (List.range 27).map (fun i => some (480 + 30 * i)) := by decide
  have hchain : List.Chain' (· < ·)
      (generateTimes.map (fun t => (timeToMinutes t).getD 0)) := by
    have h2 : generateTimes.map (fun t => (timeToMinutes t).getD 0) =
        (List.range 27).map (fun i => 480 + 30 * i) := by decide
    rw [h2]
    exact ((List.pairwise_map).mpr
      ((List.pairwise_lt_range 27).imp (by omega))).chain'
  refine ⟨by decide, by decide, by decide, hmap, hchain, ?_, ?_⟩
  · intro s t ht
    by_cases hs : s = ""
    · simpa [validEndTimes, hs, allTimes] using ht
    · simp only [validEndTimes, if_pos (by exact hs), allTimes] at ht
      exact (List.mem_filter.mp ht).1
  · intro t ht
    have hmem : timeToMinutes t ∈ generateTimes.map timeToMinutes :=
      List.mem_map_of_mem _ ht
    rw [hmap] at hmem
    obtain ⟨i, hi, heq⟩ := List.mem_map.mp hmem
    have hi27 : i < 27 := List.mem_range.mp hi
    exact ⟨480 + 30 * i, heq.symm, by omega, by omega⟩

/-- C9 witness: the membership conjunct applied at a concrete selectable end
time, together with the length fact. -/
theorem generateTimes_spec_witness :
    generateTimes.length = 27 ∧ "9:00 AM" ∈ generateTimes :=
  ⟨generateTimes_spec.1,
   generateTimes_spec.2.2.2.2.2.1 "8:00 AM" "9:00 AM" (by decide)⟩

/-- C10: class-list edits touch only the targeted entry. Editing at a valid
index replaces exactly that entry; appending leaves all existing entries in
place; deleting removes exactly the indexed entry and shifts the later ones
down by one, preserving their relative order; and in each case the list
persisted under `classData` is the same updated list. -/
theorem class_edit_delete_frame (p : ClasstimePageState) (i : Nat)
    (obj : SavedClass) (hi : i < p.classes.length) :
    ((pageHandleSave p (some i) obj).classes.length = p.classes.length ∧
     (pageHandleSave p (some i) obj).classes[i]? = some obj ∧
     (∀ j, j ≠ i → (pageHandleSave p (some i) obj).classes[j]? = p.classes[j]?) ∧
     (pageHandleSave p (some i) obj).storage.classData =
       (pageHandleSave p (some i) obj).classes) ∧
    ((pageHandleSave p none obj).classes = p.classes ++ [obj] ∧
     (∀ j, j < p.classes.length →
       (pageHandleSave p none obj).classes[j]? = p.classes[j]?) ∧
     (pageHandleSave p none obj).storage.classData =
       (pageHandleSave p none obj).classes) ∧
    ((pageHandleDelete p i).classes.length = p.classes.length - 1 ∧
     (∀ j, j < i → (pageHandleDelete p i).classes[j]? = p.classes[j]?) ∧
     (∀ j, i ≤ j → (pageHandleDelete p i).classes[j]? = p.classes[j + 1]?) ∧
     (pageHandleDelete p i).storage.classData =
       (pageHandleDelete p i).classes) := by
  refine ⟨⟨?_, ?_, ?_, rfl⟩, ⟨rfl, ?_, rfl⟩, ⟨?_, ?_, ?_, rfl⟩⟩
  · simp [pageHandleSave, handleSave]
  · simp [pageHandleSave, handleSave, List.getElem?_set, hi]
  · intro j hj
    simp [pageHandleSave, handleSave, List.getElem?_set, Ne.symm hj]
  · intro j hj
    simp [pageHandleSave, handleSave, List.getElem?_append_left hj]
  · simp [pageHandleDelete, handleDelete_eq_eraseIdx, List.length_eraseIdx, hi]
  · intro j hj
    simp [pageHandleDelete, handleDelete_eq_eraseIdx, List.getElem?_eraseIdx, hj]
  · intro j hj
    simp [pageHandleDelete, handleDelete_eq_eraseIdx, List.getElem?_eraseIdx,
      Nat.not_lt.mpr hj]

/-- C1: after a midterms refresh cycle in which a candidate with a concrete
(date, start, end) span is accepted for a course, the persisted store holds
exactly one Midterm Event for that course, bearing the newly accepted date:
the accepted candidate replaces any previously stored Midterm Event of the
course (whatever its date) instead of being added alongside it. -/
theorem midterm_refresh_replaces (s : SyncStorage)
    (cands : List AnnouncementCandidate) (X : String)
    (c1 : AnnouncementCandidate) (d st en : String)
    (hfind : (cands.filter (fun c => c.course == X)).find?
        (fun c => c.span.isSome) = some c1)
    (hsp : c1.span = some (d, st, en)) :
    (midtermRefresh s cands).1.midterms.filter (fun e => e.course == X) =
      [midtermOf X (d, st, en)] := by
  have hc1X : c1.course = X := by
    have := (List.mem_filter.mp (List.mem_of_find?_eq_some hfind)).2
    simpa using this
  have hfa : firstAcceptedEvent cands X = some (midtermOf X (d, st, en)) := by
    simp [firstAcceptedEvent, hfind, hsp, hc1X]
  have hm := mergeMidterms_filter s.midterms cands X _ hfa
  simpa [midtermRefresh, midtermReparse] using hm

/-- C1 witness: the MATH 253 scenario — cycle 1 accepts a midterm dated
2025/10/15, cycle 2 accepts one dated 2025/10/22; after cycle 2 the store
holds exactly one MATH 253 Midterm Event, dated 2025/10/22. -/
theorem midterm_refresh_replaces_witness :
    ((midtermRefresh
        (midtermRefresh ⟨[], [], [], []⟩
          [⟨"MATH 253", some ("2025/10/15", "12:00:00", "13:00:00")⟩]).1
        [⟨"MATH 253", some ("2025/10/22", "12:00:00", "13:00:00")⟩]).1.midterms.filter
      (fun e => e.course == "MATH 253")) =
      [midtermOf "MATH 253" ("2025/10/22", "12:00:00", "13:00:00")] :=
  midterm_refresh_replaces
    (midtermRefresh ⟨[], [], [], []⟩
      [⟨"MATH 253", some ("2025/10/15", "12:00:00", "13:00:00")⟩]).1
    [⟨"MATH 253", some ("2025/10/22", "12:00:00", "13:00:00")⟩] "MATH 253"
    ⟨"MATH 253", some ("2025/10/22", "12:00:00", "13:00:00")⟩
    "2025/10/22" "12:00:00" "13:00:00" (by decide) rfl

/-- C2: within one refresh cycle, in each group of candidates sharing a course
identifier, only the first candidate (in supplied order) yielding a concrete
span is accepted: the store ends with exactly that candidate's event for the
course; every same-course candidate that comes after an accepted one lands in
the rejection report, and its own differing event is not in the store. -/
theorem merge_first_candidate_wins (existing : List Event)
    (cands : List AnnouncementCandidate) (X : String)
    (c1 : AnnouncementCandidate)
    (hfind : (cands.filter (fun c => c.course == X)).find?
        (fun c => c.span.isSome) = some c1) :
    ∃ sp, c1.span = some sp ∧
      (mergeMidterms existing cands).1.filter (fun e => e.course == X) =
        [midtermOf X sp] ∧
      ∀ l₁ c l₂, cands = l₁ ++ c :: l₂ → c.course = X →
        (∃ c' ∈ l₁, c'.course = X ∧ c'.span.isSome = true) →
        c ∈ (mergeMidterms existing cands).2 ∧
        ∀ sp', c.span = some sp' → sp' ≠ sp →
          midtermOf X sp' ∉ (mergeMidterms existing cands).1 := by
  have hsome : c1.span.isSome = true := by
    have := List.find?_some hfind
    simpa using this
  obtain ⟨sp, hsp⟩ := Option.isSome_iff_exists.mp hsome
  have hc1X : c1.course = X := by
    have := (List.mem_filter.mp (List.mem_of_find?_eq_some hfind)).2
    simpa using this
  have hfa : firstAcceptedEvent cands X = some (midtermOf X sp) := by
    simp [firstAcceptedEvent, hfind, hsp, hc1X]
  have hstore := mergeMidterms_filter existing cands X _ hfa
  refine ⟨sp, hsp, hstore, ?_⟩
  intro l₁ c l₂ hcands hcX hex
  constructor
  · have hp : (mergeMidterms existing cands).2 = (processCands [] [] cands).2 := rfl
    rw [hp, hcands]
    apply processCands_rejects_later
    refine Or.inr ?_
    obtain ⟨c', hc', hcc, hsome'⟩ := hex
    exact ⟨c', hc', by rw [hcc, hcX], hsome'⟩
  · intro sp' hsp' hne hmem
    have hin : midtermOf X sp' ∈ (mergeMidterms existing cands).1.filter
        (fun e => e.course == X) := by
      rw [List.mem_filter]
      exact ⟨hmem, by simp [midtermOf]⟩
    rw [hstore] at hin
    have heq : midtermOf X sp' = midtermOf X sp := by simpa using hin
    apply hne
    simpa [midtermOf, Prod.ext_iff] using heq

/-- C2 witness: two MATH 253 candidates in one cycle — only the first is
accepted into the store; the second appears in the rejection report. -/
theorem merge_first_candidate_wins_witness :
    (⟨"MATH 253", some ("2025/10/22", "12:00:00", "13:00:00")⟩ :
        AnnouncementCandidate) ∈
      (mergeMidterms []
        [⟨"MATH 253", some ("2025/10/15", "12:00:00", "13:00:00")⟩,
         ⟨"MATH 253", some ("2025/10/22", "12:00:00", "13:00:00")⟩]).2 ∧
    (mergeMidterms []
        [⟨"MATH 253", some ("2025/10/15", "12:00:00", "13:00:00")⟩,
         ⟨"MATH 253", some ("2025/10/22", "12:00:00", "13:00:00")⟩]).1.filter
      (fun e => e.course == "MATH 253") =
      [midtermOf "MATH 253" ("2025/10/15", "12:00:00", "13:00:00")] := by
  obtain ⟨sp, hsp, hstore, hrej⟩ := merge_first_candidate_wins []
    [⟨"MATH 253", some ("2025/10/15", "12:00:00", "13:00:00")⟩,
     ⟨"MATH 253", some ("2025/10/22", "12:00:00", "13:00:00")⟩] "MATH 253"
    ⟨"MATH 253", some ("2025/10/15", "12:00:00", "13:00:00")⟩ (by decide)
  obtain rfl : ("2025/10/15", "12:00:00", "13:00:00") = sp := Option.some.inj hsp
  refine ⟨?_, hstore⟩
  exact (hrej [⟨"MATH 253", some ("2025/10/15", "12:00:00", "13:00:00")⟩]
    ⟨"MATH 253", some ("2025/10/22", "12:00:00", "13:00:00")⟩ [] rfl rfl
    ⟨⟨"MATH 253", some ("2025/10/15", "12:00:00", "13:00:00")⟩, by simp, rfl,
      rfl⟩).1

/-- C5: for every valid weekday set W, positive interval I, anchor date and
exception set, expanding the rule over the window [anchor, anchor + 10·I
weeks) yields exactly 10×|W| dates before exception removal; removing the
excluded exception dates leaves 10×|W| minus their number; every produced
date falls on a weekday in W; and the output is strictly increasing. -/
theorem expand_ten_week_window (a I : Nat) (W : Finset (Fin 7))
    (ex : Finset Nat) (hI : 1 ≤ I) :
    (expandAll ⟨a, I, W, ex⟩ a (a + 70 * I)).length = 10 * W.card ∧
    (expand ⟨a, I, W, ex⟩ a (a + 70 * I)).length =
      10 * W.card -
        ((expandAll ⟨a, I, W, ex⟩ a (a + 70 * I)).filter
          (fun d => d ∈ ex)).length ∧
    (∀ d ∈ expand ⟨a, I, W, ex⟩ a (a + 70 * I), wd d ∈ W) ∧
    List.Pairwise (· < ·) (expand ⟨a, I, W, ex⟩ a (a + 70 * I)) := by
  have hlen : (expandAll ⟨a, I, W, ex⟩ a (a + 70 * I)).length = 10 * W.card :=
    expandAll_length_window ⟨a, I, W, ex⟩ hI
  refine ⟨hlen, ?_, ?_, ?_⟩
  · rw [expand, length_filter_decide_not _ (fun d => d ∈ ex), hlen]
  · intro d hd
    exact mem_expandAll_weekday (List.mem_of_mem_filter hd)
  · exact (expandAll_pairwise ⟨a, I, W, ex⟩ a (a + 70 * I) hI).filter _

/-- C5 witness: the window facts at a concrete rule — anchor 3, biweekly
interval 2, weekdays {1, 4}, one exception date. -/
theorem expand_ten_week_window_witness :
    (expandAll ⟨3, 2, {1, 4}, {11}⟩ 3 (3 + 70 * 2)).length =
      10 * ({1, 4} : Finset (Fin 7)).card ∧
    (expand ⟨3, 2, {1, 4}, {11}⟩ 3 (3 + 70 * 2)).length =
      10 * ({1, 4} : Finset (Fin 7)).card -
        ((expandAll ⟨3, 2, {1, 4}, {11}⟩ 3 (3 + 70 * 2)).filter
          (fun d => d ∈ ({11} : Finset Nat))).length ∧
    (∀ d ∈ expand ⟨3, 2, {1, 4}, {11}⟩ 3 (3 + 70 * 2), wd d ∈
      ({1, 4} : Finset (Fin 7))) ∧
    List.Pairwise (· < ·) (expand ⟨3, 2, {1, 4}, {11}⟩ 3 (3 + 70 * 2)) :=
  expand_ten_week_window 3 2 {1, 4} {11} (by decide)

/-- C7: every class meeting the form passes to `onSave` has start time
strictly before end time (indeed at least 30 minutes before): the only
selectable end times are those at least 30 minutes after the chosen start,
and choosing a start time clears any previously chosen end time, so any
reachable submitted state satisfies the invariant. -/
theorem classtime_start_lt_end (acts : List ClasstimeAction) (cls : SavedClass)
    (h : handleSubmit (runActions initState acts) = some cls) :
    (∃ sMin eMin, timeToMinutes cls.startTime = some sMin ∧
      timeToMinutes cls.endTime = some eMin ∧
      sMin + 30 ≤ eMin ∧ sMin < eMin) ∧
    (∀ st t, (t = "" ∨ t ∈ allTimes) →
      (applyAction st (ClasstimeAction.chooseStart t)).endTime = "") ∧
    (∀ s t, s ≠ "" → t ∈ validEndTimes s → minutesGE t s = true) := by
  refine ⟨?_, ?_, ?_⟩
  · have hEnd : EndOk (runActions initState acts) :=
      endOk_run acts initState (Or.inl rfl)
    set st := runActions initState acts with hst
    unfold handleSubmit at h
    by_cases hv : isValid st
    · rw [if_pos hv] at h
      obtain rfl := Option.some.inj h
      have hv' := hv
      simp only [isValid, Bool.and_eq_true, bne_iff_ne, ne_eq] at hv'
      have hend_ne : st.endTime ≠ "" := hv'.2
      rcases hEnd with he | ⟨hs, hmem⟩
      · exact absurd he hend_ne
      · have hmg : minutesGE st.endTime st.startTime = true := by
          unfold validEndTimes at hmem
          rw [if_pos hs] at hmem
          exact (List.mem_filter.mp hmem).2
        unfold minutesGE at hmg
        cases hts : timeToMinutes st.startTime with
        | none =>
            rw [hts] at hmg
            cases hte : timeToMinutes st.endTime <;> rw [hte] at hmg <;>
              simp at hmg
        | some b =>
            cases hte : timeToMinutes st.endTime with
            | none => rw [hte, hts] at hmg; simp at hmg
            | some a =>
                rw [hte, hts] at hmg
                simp only [ge_iff_le, decide_eq_true_eq] at hmg
                exact ⟨b, a, rfl, rfl, hmg, by omega⟩
    · rw [if_neg hv] at h
      exact absurd h (by simp)
  · intro st t hopt
    simp [applyAction, hopt]
  · intro s t hs hmem
    unfold validEndTimes at hmem
    rw [if_pos hs] at hmem
    exact (List.mem_filter.mp hmem).2

/-- C7 witness: a concrete interaction sequence submitting 8:00 AM → 9:00 AM
satisfies the invariant (480 + 30 ≤ 540). -/
theorem classtime_start_lt_end_witness :
    (∃ sMin eMin, timeToMinutes "8:00 AM" = some sMin ∧
      timeToMinutes "9:00 AM" = some eMin ∧
      sMin + 30 ≤ eMin ∧ sMin < eMin) ∧
    (applyAction ⟨"CPEN 221", ⟨true, false, false, false, false⟩, "8:00 AM",
      "9:00 AM"⟩ (ClasstimeAction.chooseStart "9:00 AM")).endTime = "" := by
  have h := classtime_start_lt_end
    [ClasstimeAction.setName "CPEN 221", ClasstimeAction.toggleM,
     ClasstimeAction.chooseStart "8:00 AM", ClasstimeAction.chooseEnd "9:00 AM"]
    ⟨"CPEN 221", ⟨true, false, false, false, false⟩, "8:00 AM", "9:00 AM"⟩
    (by decide)
  exact ⟨h.1, h.2.1 _ "9:00 AM" (Or.inr (by decide))⟩

/-- C10 witness: the edit/append/delete frame facts at a concrete two-entry
class list. -/
theorem class_edit_delete_frame_witness :
    (pageHandleSave
        ⟨[⟨"A", ⟨true, false, false, false, false⟩, "8:00 AM", "9:00 AM"⟩,
          ⟨"B", ⟨false, true, false, false, false⟩, "9:00 AM", "10:00 AM"⟩],
         ⟨[], [], [], []⟩⟩ (some 0)
        ⟨"C", ⟨true, true, false, false, false⟩, "10:00 AM", "11:00 AM"⟩).classes.length = 2 ∧
    (pageHandleDelete
        ⟨[⟨"A", ⟨true, false, false, false, false⟩, "8:00 AM", "9:00 AM"⟩,
          ⟨"B", ⟨false, true, false, false, false⟩, "9:00 AM", "10:00 AM"⟩],
         ⟨[], [], [], []⟩⟩ 0).classes.length = 1 := by
  have h := class_edit_delete_frame
    ⟨[⟨"A", ⟨true, false, false, false, false⟩, "8:00 AM", "9:00 AM"⟩,
      ⟨"B", ⟨false, true, false, false, false⟩, "9:00 AM", "10:00 AM"⟩],
     ⟨[], [], [], []⟩⟩ 0
    ⟨"C", ⟨true, true, false, false, false⟩, "10:00 AM", "11:00 AM"⟩ (by decide)
  exact ⟨h.1.1, h.2.2.1⟩

end NotiFlow
